import Mathlib

/-!
Verification of the Savu slicing/batching/distribution engine and dataset
lifecycle manager against its design description.  The definitions below are
shallow embeddings of the functions in
savu/data/transport_data/hdf5_transport_data.py,
savu/data/experiment_collection.py and
savu/plugins/driver/iterative_plugin.py; exceptions the Python code can raise
are modelled by Option results (none = the call raises).
-/

set_option maxHeartbeats 1000000

/-- One entry of a slice tuple: a single integer index, the full-range
marker (slice(None), used on core dimensions), or a range slice
(start, stop, step) produced by batching. -/
inductive SliceItem where
  | idx (i : Int)
  | full
  | rng (start stop stp : Int)
deriving DecidableEq

/-- Difference of two entries, used by calc_step on unequal entries; in the
source both entries are then integer indices. -/
def itemDiff : SliceItem → SliceItem → Int
  | SliceItem.idx a, SliceItem.idx b => b - a
  | _, _ => 0

/-- Shallow embedding of Hdf5TransportData.calc_step: per-axis step between
two slice tuples, 0 where the entries are equal, otherwise the difference. -/
def calc_step (a b : List SliceItem) : List Int :=
  (a.zip b).map (fun p => if p.1 = p.2 then 0 else itemDiff p.1 p.2)

/-- Row-major (last axis fastest) enumeration of all multi-indices with the
given extents; the semantics of np.nditer with multi_index over the axes
kept in get_slice_list. -/
def cartProd : List Nat → List (List Nat)
  | [] => [[]]
  | e :: es => (List.range e).flatMap (fun i => (cartProd es).map (fun mi => i :: mi))

/-- The slice directions: every dimension of the shape that is not a core
direction, in increasing order (the axes that survive remove_axis). -/
def sliceDirs (shape : List Nat) (core : List Nat) : List Nat :=
  (List.range shape.length).filter (fun d => !(core.contains d))

/-- The slice tuple built for one multi-index over the slice dimensions:
per output dimension, the full-range marker on core directions and the
multi-index entry for the dimension's position among the slice directions
otherwise (the mapping_array redirection of get_slice_list). -/
def sliceTupleOf (shape : List Nat) (core : List Nat) (mi : List Nat) :
    List SliceItem :=
  (List.range shape.length).map (fun d =>
    if core.contains d then SliceItem.full
    else SliceItem.idx (Int.ofNat (mi.getD ((sliceDirs shape core).indexOf d) 0)))

/-- Shallow embedding of Hdf5TransportData.get_slice_list: one tuple per
combination of indices over the slice dimensions, enumerated in row-major
order, with core dimensions holding the full-range marker. -/
def get_slice_list (shape : List Nat) (core : List Nat) : List (List SliceItem) :=
  (cartProd ((sliceDirs shape core).map (fun d => shape.getD d 0))).map
    (sliceTupleOf shape core)

/-- State of the scanning loop of group_slice_list: the banked groups so
far, the open batch, and the current step (none models the integer
sentinel -1 of the source). -/
structure GroupState where
  banked : List (Option (List Int) × List (List SliceItem))
  batch : List (List SliceItem)
  stp : Option (List Int)

/-- Count of strictly positive components of a step, matching
(np.array(new_step) > 0).sum() in group_slice_list. -/
def posCount (s : List Int) : Nat := s.countP (fun x => decide (0 < x))

/-- One iteration of the scanning loop of group_slice_list. -/
def groupStep (st : GroupState) (sl : List SliceItem) : GroupState :=
  if st.batch.isEmpty then
    { banked := st.banked, batch := [sl], stp := none }
  else
    match st.stp with
    | none =>
      if posCount (calc_step (st.batch.getLast?.getD []) sl) > 1 then
        { banked := st.banked ++ [(none, st.batch)], batch := [sl], stp := none }
      else
        { banked := st.banked, batch := st.batch ++ [sl],
          stp := some (calc_step (st.batch.getLast?.getD []) sl) }
    | some s =>
      if calc_step (st.batch.getLast?.getD []) sl = s then
        { banked := st.banked, batch := st.batch ++ [sl], stp := some s }
      else
        { banked := st.banked ++ [(some s, st.batch)], batch := [sl], stp := none }

/-- The scanning loop of group_slice_list run over a whole slice list. -/
def groupFold (sls : List (List SliceItem)) : GroupState :=
  sls.foldl groupStep { banked := [], batch := [], stp := none }

/-- The banked groups at the end of the scanning loop, including the final
banked.append((step, batch)) of the source. -/
def bankedAll (sls : List (List SliceItem)) :
    List (Option (List Int) × List (List SliceItem)) :=
  (groupFold sls).banked ++ [((groupFold sls).stp, (groupFold sls).batch)]

/-- Python range(start, stop, w) for a natural step width w, as a list of
integers (empty when stop is not above start). -/
def pyRange (start stop : Int) (w : Nat) : List Int :=
  (List.range (((stop - start).toNat + w - 1) / w)).map
    (fun k => start + Int.ofNat k * Int.ofNat w)

/-- The integer indices selected by slice(start, stop, stp) with a positive
integer step, used to count the frames a range slice covers. -/
def sliceIndices (start stop stp : Int) : List Int :=
  (List.range (((stop - start).toNat + stp.toNat - 1) / stp.toNat)).map
    (fun k => start + Int.ofNat k * stp)

/-- Maximum of a list of integers, 0 on the empty list (on which the source
raises before using the value). -/
def listMax : List Int → Int
  | [] => 0
  | x :: xs => xs.foldl max x

/-- Closing one banked group, as in the second loop of group_slice_list:
choose the axis of the maximal step component, read the first and last
index on that axis, and emit one tuple per range(start, stop, max_frames)
step with the single-index entry replaced by a range slice.  A group banked
with the step sentinel (-1 in the source, none here), an empty step list,
or a non-integer entry on the chosen axis makes the source raise, modelled
as none. -/
def closeGroup (max_frames : Nat)
    (sg : Option (List Int) × List (List SliceItem)) :
    Option (List (List SliceItem)) :=
  match sg with
  | (none, _) => none
  | (some s, group) =>
    if s.isEmpty then none
    else
      match group.head?, group.getLast? with
      | some g0, some gl =>
        match g0.getD (s.indexOf (listMax s)) SliceItem.full,
            gl.getD (s.indexOf (listMax s)) SliceItem.full with
        | SliceItem.idx start, SliceItem.idx stop =>
          some ((pyRange start stop max_frames).map
            (fun i => g0.set (s.indexOf (listMax s))
              (SliceItem.rng i (i + (max_frames : Int))
                (s.getD (s.indexOf (listMax s)) 0))))
        | _, _ => none
      | _, _ => none

/-- Sequencing of an Option-valued map over a list: the whole computation
fails as soon as one element fails, like the sequential Python loop. -/
def optionMapM (f : α → Option β) : List α → Option (List β)
  | [] => some []
  | a :: l =>
    match f a, optionMapM f l with
    | some b, some bs => some (b :: bs)
    | _, _ => none

/-- Shallow embedding of Hdf5TransportData.group_slice_list; none models an
exception escaping the closing loop. -/
def group_slice_list (sls : List (List SliceItem)) (max_frames : Nat) :
    Option (List (List SliceItem)) :=
  (optionMapM (closeGroup max_frames) (bankedAll sls)).map List.flatten

/-- True on entries that are not range slices. -/
def isPlainItem : SliceItem → Bool
  | SliceItem.rng _ _ _ => false
  | _ => true

/-- A slice tuple made only of single indices and full-range markers, the
shape of every tuple the enumerator produces. -/
def PlainTup (t : List SliceItem) : Prop := ∀ x ∈ t, isPlainItem x = true

instance : DecidablePred PlainTup :=
  fun t => inferInstanceAs (Decidable (∀ x ∈ t, isPlainItem x = true))

/-- Expand a grouped tuple back into its single-index tuples, replacing the
first range entry by each integer index it covers. -/
def flattenBatch (t : List SliceItem) : List (List SliceItem) :=
  match t.findIdx? (fun x => !isPlainItem x) with
  | none => [t]
  | some j =>
    match t.getD j SliceItem.full with
    | SliceItem.rng a b s => (sliceIndices a b s).map (fun i => t.set j (SliceItem.idx i))
    | _ => [t]

/-- Flattening a whole sequence of work batches back into index tuples. -/
def flattenGrouped (g : List (List SliceItem)) : List (List SliceItem) :=
  g.flatMap flattenBatch

/-- Section sizes used by np.array_split(np.arange(L), R): the first
L mod R sections have size L / R + 1 and the rest size L / R. -/
def sectionSizes (L R : Nat) : List Nat :=
  List.replicate (L % R) (L / R + 1) ++ List.replicate (R - L % R) (L / R)

/-- Cut a list into consecutive sections of the given sizes. -/
def splitBySizes : List α → List Nat → List (List α)
  | _, [] => []
  | l, n :: ns => l.take n :: splitBySizes (l.drop n) ns

/-- np.array_split(np.arange(L), R): the index range [0, L) cut into R
contiguous sections of near-equal sizes. -/
def arraySplit (L R : Nat) : List (List Nat) :=
  splitBySizes (List.range L) (sectionSizes L R)

/-- Shallow embedding of Hdf5TransportData.get_slice_list_per_process: look
up this process's frames section and return the corresponding contiguous
part of the grouped slice list; none models the exceptions the source
raises (zero sections, rank index out of range, or an empty frames array
hit by frames[0]). -/
def get_slice_list_per_process (slice_list : List α) (process nProcs : Nat) :
    Option (List α) :=
  if nProcs = 0 then none
  else if process < nProcs then
    match ((arraySplit slice_list.length nProcs).getD process []).head?,
        ((arraySplit slice_list.length nProcs).getD process []).getLast? with
    | some a, some b => some ((slice_list.drop a).take (b + 1 - a))
    | _, _ => none
  else none

/-- A dataset as the lifecycle manager sees it: an object identity, a name
and the remove flag (false on creation). -/
structure DataObj where
  oid : Nat
  name : String
  remove : Bool
deriving DecidableEq

/-- The experiment index: the input dataset map and the output dataset set
(an association list with distinct names, as a dict). -/
structure ExpIndex where
  in_data : String → Option DataObj
  out_data : List (String × DataObj)

/-- One step of the merge loop: an output with remove false is written into
the input map under its name, an output with remove true is skipped. -/
def mergeWrite (acc : String → Option DataObj) (kv : String × DataObj) :
    String → Option DataObj :=
  if kv.2.remove = false then fun k => if k = kv.1 then some kv.2 else acc k
  else acc

/-- Shallow embedding of Experiment._merge_out_data_to_in. -/
def merge_out_data_to_in (idx : ExpIndex) : ExpIndex :=
  { in_data := idx.out_data.foldl mergeWrite idx.in_data, out_data := [] }

/-- Shallow embedding of Experiment.create_data_object on one role map: an
existing name returns the existing object and leaves the map unchanged,
otherwise the freshly constructed object is inserted and returned. -/
def create_data_object (index : String → Option DataObj) (name : String)
    (fresh : DataObj) : (String → Option DataObj) × DataObj :=
  match index name with
  | some d => (index, d)
  | none => (fun k => if k = name then some fresh else index k, fresh)

/-- Whether the first character list occurs as a contiguous run inside the
second, the semantics of the Python substring test. -/
def listContains (p : List Char) : List Char → Bool
  | [] => p.isEmpty
  | c :: cs => p.isPrefixOf (c :: cs) || listContains p cs

/-- Whether a dataset name is a clone name, i.e. contains itr_clone. -/
def isCloneName (s : String) : Bool :=
  listContains "itr_clone".data s.data

/-- Shallow embedding of IterativePlugin.__finalise_datasets for one
alternating pair (s1, s2) of distinct datasets: the member enrolled in
out_datasets continues, the other is marked remove = true, and the
continuing member receives the pair's name with clone names resolved. -/
def finalisePair (s1 s2 : DataObj) (outs : List DataObj) : DataObj × DataObj :=
  let nm := if isCloneName s1.name then s2.name else s1.name
  if outs.contains s1 then
    ({ s1 with name := nm }, { s2 with remove := true })
  else
    ({ s1 with remove := true }, { s2 with name := nm })

/-- Row-major mixed-radix rank of a multi-index with respect to a list of
extents: the position the index occupies in last-axis-fastest order. -/
def rmRank : List Nat → List Nat → Nat
  | _ :: es, i :: is => i * es.prod + rmRank es is
  | _, _ => 0

/-- The integer index stored in a slice-tuple entry, 0 on other entries. -/
def itemIdx : SliceItem → Nat
  | SliceItem.idx i => i.toNat
  | _ => 0

/-- The shape of a well-formed banked group: with the step sentinel the
group holds at most one tuple; with an established step the group has at
least two tuples, every consecutive pair steps by exactly the established
step, and the established step has at most one strictly positive
component. -/
def groupOk : Option (List Int) × List (List SliceItem) → Prop
  | (none, g) => g.length ≤ 1
  | (some s, g) => 2 ≤ g.length ∧ posCount s ≤ 1 ∧
      List.Chain' (fun a b => calc_step a b = s) g

/-- Invariant of the scanning loop: all banked groups and the open batch
are well formed. -/
def stInv (st : GroupState) : Prop :=
  (∀ e ∈ st.banked, groupOk e) ∧ groupOk (st.stp, st.batch)

/-- Consecutive contiguous segments of the natural numbers determined by a
start and a list of sizes. -/
def rangeSegs (s : Nat) : List Nat → List (List Nat)
  | [] => []
  | n :: ns => List.range' s n :: rangeSegs (s + n) ns

lemma optionMapM_eq_none (f : α → Option β) (l : List α) (a : α)
    (ha : a ∈ l) (hfa : f a = none) : optionMapM f l = none := by
  induction l with
  | nil => cases ha
  | cons b t ih =>
    rcases List.mem_cons.mp ha with h | h
    · subst h
      unfold optionMapM
      rw [hfa]
    · unfold optionMapM
      rw [ih h]
      cases f b <;> rfl

/-- Claim C10: group_slice_list is not total: whenever the scanning loop ends
with the step still equal to the undetermined sentinel, the closing phase
fails (the source calls a list method on the integer -1 and raises) instead
of emitting a work batch; in particular every slice list of length exactly
one makes group_slice_list fail. -/
theorem c10_group_sentinel_crash (sls : List (List SliceItem)) (mf : Nat) :
    ((groupFold sls).stp = none → group_slice_list sls mf = none)
  ∧ (sls.length = 1 → group_slice_list sls mf = none) := by
  have main : (groupFold sls).stp = none → group_slice_list sls mf = none := by
    intro h
    have hmem : ((groupFold sls).stp, (groupFold sls).batch) ∈ bankedAll sls :=
      List.mem_append_right _ (List.mem_singleton.mpr rfl)
    have hnone : closeGroup mf ((groupFold sls).stp, (groupFold sls).batch) = none := by
      rw [h]
      rfl
    unfold group_slice_list
    rw [optionMapM_eq_none _ _ _ hmem hnone]
    rfl
  refine ⟨main, fun h => ?_⟩
  rcases List.length_eq_one.mp h with ⟨t, rfl⟩
  exact main rfl

/-- Witness for c10_group_sentinel_crash at the singleton slice list. -/
theorem c10_witness :
    group_slice_list [[SliceItem.idx 0, SliceItem.full]] 4 = none :=
  (c10_group_sentinel_crash [[SliceItem.idx 0, SliceItem.full]] 4).2 rfl

/-- Claim C1 (failing input): on the enumerator output for shape (9, 2) with
core dimension 1 and max_frames = 4, the closing loop of group_slice_list
uses the last tuple's coordinate as an exclusive range bound, so flattening
the emitted batches reproduces only the first 8 of the 9 enumerated tuples:
the round-trip law fails and the final frame is dropped. -/
theorem c1_roundtrip_fails :
    (group_slice_list (get_slice_list [9, 2] [1]) 4).map flattenGrouped
      = some ((get_slice_list [9, 2] [1]).take 8)
  ∧ (get_slice_list [9, 2] [1]).length = 9 := by
  exact ⟨by decide, by decide⟩

/-- Claim C7 (counterexample): creating a data object under a name that is
already present does not fail; it returns the existing object and leaves
the registry map unchanged (no DuplicateDatasetError exists in the code). -/
theorem c7_counterexample :
    (create_data_object
        (fun k => if k = "A" then some ⟨0, "A", false⟩ else none) "A"
        ⟨1, "A", false⟩).2 = (⟨0, "A", false⟩ : DataObj)
  ∧ (create_data_object
        (fun k => if k = "A" then some ⟨0, "A", false⟩ else none) "A"
        ⟨1, "A", false⟩).1 "A" = some (⟨0, "A", false⟩ : DataObj) := by
  exact ⟨by decide, by decide⟩

/-- Claim C7 (amended): when the requested name is already bound in the role
map, create_data_object returns the existing data object and the map
unchanged, rather than raising. -/
theorem c7_create_existing_amended (index : String → Option DataObj)
    (name : String) (fresh d : DataObj) (h : index name = some d) :
    create_data_object index name fresh = (index, d) := by
  unfold create_data_object
  rw [h]

/-- Witness for c7_create_existing_amended at a concrete map. -/
theorem c7_amended_witness :
    create_data_object
        (fun k => if k = "B" then some ⟨3, "B", false⟩ else none) "B"
        ⟨4, "B", false⟩
      = ((fun k => if k = "B" then some ⟨3, "B", false⟩ else none), ⟨3, "B", false⟩) :=
  c7_create_existing_amended _ "B" ⟨4, "B", false⟩ ⟨3, "B", false⟩ (by decide)

/-- Claim C8 (counterexample): with one batch and two ranks, rank 1 is in
range yet get_slice_list_per_process fails (its frames share is empty and
frames[0] raises), contradicting that in-range arguments never fail. -/
theorem c8_counterexample :
    1 < 2 ∧ get_slice_list_per_process ([0] : List Nat) 1 2 = none := by
  exact ⟨by decide, by decide⟩

lemma groupStep_inv (st : GroupState) (sl : List SliceItem) (h : stInv st) :
    stInv (groupStep st sl) := by
  obtain ⟨hb, hcur⟩ := h
  unfold groupStep
  split
  · exact ⟨hb, by simp [groupOk]⟩
  · rename_i hne
    have hnil : st.batch ≠ [] := by
      intro hn
      exact hne (by simp [hn])
    split
    · rename_i heq
      rw [heq] at hcur
      have hlen1 : st.batch.length ≤ 1 := hcur
      have hlen : st.batch.length = 1 := by
        have hpos0 : 0 < st.batch.length := List.length_pos.mpr hnil
        omega
      obtain ⟨b0, hb0⟩ := List.length_eq_one.mp hlen
      split
      · refine ⟨?_, by simp [groupOk]⟩
        intro e he
        rcases List.mem_append.mp he with h1 | h1
        · exact hb e h1
        · rw [List.mem_singleton.mp h1]
          exact hcur
      · rename_i hpos
        refine ⟨hb, ?_, Nat.not_lt.mp hpos, ?_⟩
        · simp [hb0]
        · rw [hb0]
          refine List.chain'_pair.mpr ?_
          rfl
    · rename_i s heq
      rw [heq] at hcur
      obtain ⟨hlen2, hpc, hch⟩ := hcur
      split
      · rename_i hns
        refine ⟨hb, ?_, hpc, ?_⟩
        · have := List.length_append st.batch [sl]
          simp only [List.length_append, List.length_singleton]
          omega
        · rw [List.chain'_append]
          refine ⟨hch, List.chain'_singleton sl, ?_⟩
          intro x hx y hy
          have hy' : sl = y := by simpa using hy
          have hgl : st.batch.getLast?.getD [] = x := by
            cases hgl2 : st.batch.getLast? with
            | none => rw [hgl2] at hx; cases hx
            | some z =>
              rw [hgl2] at hx
              have hxz : z = x := by simpa using hx
              exact hxz
          rw [← hy', ← hgl]
          exact hns
      · refine ⟨?_, by simp [groupOk]⟩
        intro e he
        rcases List.mem_append.mp he with h1 | h1
        · exact hb e h1
        · rw [List.mem_singleton.mp h1]
          exact ⟨hlen2, hpc, hch⟩

lemma stInv_fold (sls : List (List SliceItem)) :
    ∀ st, stInv st → stInv (sls.foldl groupStep st) := by
  induction sls with
  | nil => intro st h; exact h
  | cons sl rest ih => intro st h; exact ih _ (groupStep_inv st sl h)

lemma bankedAll_groupOk (sls : List (List SliceItem)) :
    ∀ e ∈ bankedAll sls, groupOk e := by
  have h0 : stInv { banked := [], batch := [], stp := none } :=
    ⟨fun e he => absurd he (List.not_mem_nil e), by simp [groupOk]⟩
  have h := stInv_fold sls _ h0
  intro e he
  rcases List.mem_append.mp he with h1 | h1
  · exact h.1 e h1
  · rw [List.mem_singleton.mp h1]
    exact h.2

/-- Claim C3 (amended): every banked group either still has the sentinel
step and at most one tuple, or has an established step under which every
consecutive pair of its tuples steps identically, and that step has at
most one strictly positive component (the code counts only strictly
positive per-axis steps, so a step may vary along further axes with
negative components). -/
theorem c3_banked_single_direction (sls : List (List SliceItem))
    (e : Option (List Int) × List (List SliceItem)) (he : e ∈ bankedAll sls) :
    (e.1 = none → e.2.length ≤ 1)
  ∧ (∀ s, e.1 = some s → 2 ≤ e.2.length ∧ posCount s ≤ 1 ∧
      List.Chain' (fun a b => calc_step a b = s) e.2) := by
  have h := bankedAll_groupOk sls e he
  obtain ⟨o, g⟩ := e
  cases o with
  | none => exact ⟨fun _ => h, fun s hs => (by cases hs)⟩
  | some s0 =>
    refine ⟨fun hc => (by cases hc), fun s hs => ?_⟩
    obtain rfl : s0 = s := Option.some.inj hs
    exact h

/-- Claim C3 (counterexample): the candidate step from (0, 2) to (1, 0) is
[1, -2], which varies along two axes, yet the code accepts it (only one
component is strictly positive) and groups both tuples into a single batch,
then emits a work batch misrepresenting them as axis-0 frames at index 2. -/
theorem c3_counterexample :
    bankedAll [[SliceItem.idx 0, SliceItem.idx 2], [SliceItem.idx 1, SliceItem.idx 0]]
      = [(some [1, -2],
          [[SliceItem.idx 0, SliceItem.idx 2], [SliceItem.idx 1, SliceItem.idx 0]])]
  ∧ (calc_step [SliceItem.idx 0, SliceItem.idx 2]
        [SliceItem.idx 1, SliceItem.idx 0]).countP (fun x => decide (x ≠ 0)) = 2
  ∧ group_slice_list
        [[SliceItem.idx 0, SliceItem.idx 2], [SliceItem.idx 1, SliceItem.idx 0]] 4
      = some [[SliceItem.rng 0 4 1, SliceItem.idx 2]] := by
  exact ⟨by decide, by decide, by decide⟩

/-- Witness for c3_banked_single_direction at the two-tuple slice list whose
established step is [1, -2]. -/
theorem c3_amended_witness :
    2 ≤ ([[SliceItem.idx 0, SliceItem.idx 2],
          [SliceItem.idx 1, SliceItem.idx 0]] : List (List SliceItem)).length
  ∧ posCount [1, -2] ≤ 1
  ∧ List.Chain' (fun a b => calc_step a b = [1, -2])
      [[SliceItem.idx 0, SliceItem.idx 2], [SliceItem.idx 1, SliceItem.idx 0]] :=
  (c3_banked_single_direction
      [[SliceItem.idx 0, SliceItem.idx 2], [SliceItem.idx 1, SliceItem.idx 0]]
      (some [1, -2],
        [[SliceItem.idx 0, SliceItem.idx 2], [SliceItem.idx 1, SliceItem.idx 0]])
      (by decide)).2 [1, -2] rfl

/-- Claim C9: for an alternating pair of distinct datasets with clean remove
flags, of which exactly one carries a clone name, finalisation marks exactly
one member of the pair as removed, and the surviving member carries the
pair's externally visible (non-clone) name. -/
theorem c9_finalise_alternating (s1 s2 : DataObj) (outs : List DataObj)
    (h1 : s1.remove = false) (h2 : s2.remove = false)
    (hc : isCloneName s1.name = !isCloneName s2.name) :
    (((finalisePair s1 s2 outs).1.remove = true
        ∧ (finalisePair s1 s2 outs).2.remove = false)
      ∨ ((finalisePair s1 s2 outs).1.remove = false
        ∧ (finalisePair s1 s2 outs).2.remove = true))
  ∧ isCloneName (if (finalisePair s1 s2 outs).1.remove = true
        then (finalisePair s1 s2 outs).2.name
        else (finalisePair s1 s2 outs).1.name) = false
  ∧ (if (finalisePair s1 s2 outs).1.remove = true
        then (finalisePair s1 s2 outs).2.name
        else (finalisePair s1 s2 outs).1.name)
      = (if isCloneName s1.name then s2.name else s1.name) := by
  cases hm : outs.contains s1 with
  | false =>
    have hm' : s1 ∉ outs := by simpa using hm
    cases hcs1 : isCloneName s1.name <;> cases hcs2 : isCloneName s2.name <;>
      simp [finalisePair, hm', hcs1, hcs2, h1, h2] at hc ⊢
  | true =>
    have hm' : s1 ∈ outs := by simpa using hm
    cases hcs1 : isCloneName s1.name <;> cases hcs2 : isCloneName s2.name <;>
      simp [finalisePair, hm', hcs1, hcs2, h1, h2] at hc ⊢

/-- Witness for c9_finalise_alternating at a concrete pair whose second
member is the clone and whose first member is enrolled in out_datasets. -/
theorem c9_witness :
    (((finalisePair ⟨0, "X", false⟩ ⟨1, "Xitr_clone0", false⟩
          [⟨0, "X", false⟩]).1.remove = true
        ∧ (finalisePair ⟨0, "X", false⟩ ⟨1, "Xitr_clone0", false⟩
            [⟨0, "X", false⟩]).2.remove = false)
      ∨ ((finalisePair ⟨0, "X", false⟩ ⟨1, "Xitr_clone0", false⟩
            [⟨0, "X", false⟩]).1.remove = false
        ∧ (finalisePair ⟨0, "X", false⟩ ⟨1, "Xitr_clone0", false⟩
            [⟨0, "X", false⟩]).2.remove = true))
  ∧ isCloneName (if (finalisePair ⟨0, "X", false⟩ ⟨1, "Xitr_clone0", false⟩
          [⟨0, "X", false⟩]).1.remove = true
        then (finalisePair ⟨0, "X", false⟩ ⟨1, "Xitr_clone0", false⟩
            [⟨0, "X", false⟩]).2.name
        else (finalisePair ⟨0, "X", false⟩ ⟨1, "Xitr_clone0", false⟩
            [⟨0, "X", false⟩]).1.name) = false
  ∧ (if (finalisePair ⟨0, "X", false⟩ ⟨1, "Xitr_clone0", false⟩
          [⟨0, "X", false⟩]).1.remove = true
        then (finalisePair ⟨0, "X", false⟩ ⟨1, "Xitr_clone0", false⟩
            [⟨0, "X", false⟩]).2.name
        else (finalisePair ⟨0, "X", false⟩ ⟨1, "Xitr_clone0", false⟩
            [⟨0, "X", false⟩]).1.name)
      = (if isCloneName (DataObj.mk 0 "X" false).name
          then (DataObj.mk 1 "Xitr_clone0" false).name
          else (DataObj.mk 0 "X" false).name) :=
  c9_finalise_alternating ⟨0, "X", false⟩ ⟨1, "Xitr_clone0", false⟩
    [⟨0, "X", false⟩] rfl rfl (by decide)

lemma mergeFold_untouched (out : List (String × DataObj)) :
    ∀ (f : String → Option DataObj) (k : String),
      (∀ d, (k, d) ∈ out → d.remove = true) →
      out.foldl mergeWrite f k = f k := by
  induction out with
  | nil => intro f k _; rfl
  | cons kv rest ih =>
    intro f k hk
    have hres : ∀ d, (k, d) ∈ rest → d.remove = true :=
      fun d hd => hk d (List.mem_cons_of_mem _ hd)
    show List.foldl mergeWrite (mergeWrite f kv) rest k = f k
    rw [ih _ _ hres]
    unfold mergeWrite
    cases hr : kv.2.remove with
    | true => simp
    | false =>
      simp only [if_pos rfl]
      by_cases hk1 : k = kv.1
      · exfalso
        have hmem : (k, kv.2) ∈ kv :: rest := by
          rw [hk1, Prod.mk.eta]
          exact List.mem_cons_self _ _
        have := hk kv.2 hmem
        rw [this] at hr
        cases hr
      · simp [hk1]

lemma mergeFold_copied (out : List (String × DataObj)) :
    ∀ (f : String → Option DataObj) (k : String) (d : DataObj),
      (out.map Prod.fst).Nodup → (k, d) ∈ out → d.remove = false →
      out.foldl mergeWrite f k = some d := by
  induction out with
  | nil => intro f k d _ h; cases h
  | cons kv rest ih =>
    intro f k d hnd hmem hrem
    have hnd' : (rest.map Prod.fst).Nodup := (List.nodup_cons.mp hnd).2
    have hnotin : kv.1 ∉ rest.map Prod.fst := (List.nodup_cons.mp hnd).1
    show List.foldl mergeWrite (mergeWrite f kv) rest k = some d
    rcases List.mem_cons.mp hmem with heq | hmem'
    · have hk : kv.1 = k := by rw [← heq]
      have hd : kv.2 = d := by rw [← heq]
      have hvac : ∀ d', (k, d') ∈ rest → d'.remove = true := by
        intro d' hd'
        exfalso
        apply hnotin
        rw [hk]
        exact List.mem_map_of_mem Prod.fst hd'
      rw [mergeFold_untouched rest _ k hvac]
      unfold mergeWrite
      rw [hd, hrem]
      simp [hk]
    · exact ih (mergeWrite f kv) k d hnd' hmem' hrem

/-- Claim C6: merging copies every produced output whose remove flag is
false into the input map under its own name (overwriting), never copies an
output marked remove, clears the output set, and on an empty output set
leaves the input map unchanged. -/
theorem c6_merge (idx : ExpIndex) (hnd : (idx.out_data.map Prod.fst).Nodup) :
    (merge_out_data_to_in idx).out_data = []
  ∧ (∀ k d, (k, d) ∈ idx.out_data → d.remove = false →
      (merge_out_data_to_in idx).in_data k = some d)
  ∧ (∀ k, (∀ d, (k, d) ∈ idx.out_data → d.remove = true) →
      (merge_out_data_to_in idx).in_data k = idx.in_data k)
  ∧ (idx.out_data = [] → (merge_out_data_to_in idx).in_data = idx.in_data) := by
  refine ⟨rfl, ?_, ?_, ?_⟩
  · intro k d hm hr
    exact mergeFold_copied idx.out_data idx.in_data k d hnd hm hr
  · intro k hk
    exact mergeFold_untouched idx.out_data idx.in_data k hk
  · intro h
    show idx.out_data.foldl mergeWrite idx.in_data = idx.in_data
    rw [h]
    rfl

/-- Witness for c6_merge: a concrete merge with one kept and one removed
output, plus a merge of an empty output set. -/
theorem c6_witness :
    (merge_out_data_to_in
        ⟨fun _ => none, [("A", ⟨1, "A", false⟩), ("B", ⟨2, "B", true⟩)]⟩).out_data = []
  ∧ (merge_out_data_to_in
        ⟨fun _ => none, [("A", ⟨1, "A", false⟩), ("B", ⟨2, "B", true⟩)]⟩).in_data "A"
      = some ⟨1, "A", false⟩
  ∧ (merge_out_data_to_in
        ⟨fun _ => none, [("A", ⟨1, "A", false⟩), ("B", ⟨2, "B", true⟩)]⟩).in_data "B"
      = none
  ∧ (merge_out_data_to_in ⟨fun _ => none, ([] : List (String × DataObj))⟩).in_data
      = (fun _ => none) := by
  have h := c6_merge ⟨fun _ => none, [("A", ⟨1, "A", false⟩), ("B", ⟨2, "B", true⟩)]⟩
    (by decide)
  have h0 := c6_merge ⟨fun _ => none, ([] : List (String × DataObj))⟩ (by decide)
  refine ⟨h.1, h.2.1 "A" ⟨1, "A", false⟩ (by decide) rfl, ?_, h0.2.2.2 rfl⟩
  refine h.2.2.1 "B" ?_
  intro d hd
  rcases List.mem_cons.mp hd with h1 | h1
  · have hfst : ("B" : String) = "A" := congrArg Prod.fst h1
    exact absurd hfst (by decide)
  · rcases List.mem_cons.mp h1 with h2 | h2
    · have hsnd : d = ⟨2, "B", true⟩ := congrArg Prod.snd h2
      rw [hsnd]
    · cases h2

lemma groupStep_banked_sub (st : GroupState) (sl : List SliceItem) :
    (groupStep st sl).banked = st.banked
  ∨ (groupStep st sl).banked = st.banked ++ [(none, st.batch)]
  ∨ ∃ s, (groupStep st sl).banked = st.banked ++ [(some s, st.batch)] := by
  unfold groupStep
  split
  · exact Or.inl rfl
  · split
    · split
      · exact Or.inr (Or.inl rfl)
      · exact Or.inl rfl
    · split
      · exact Or.inl rfl
      · exact Or.inr (Or.inr ⟨_, rfl⟩)

lemma groupStep_batch_sub (st : GroupState) (sl : List SliceItem) :
    (groupStep st sl).batch = [sl] ∨ (groupStep st sl).batch = st.batch ++ [sl] := by
  unfold groupStep
  split
  · exact Or.inl rfl
  · split
    · split
      · exact Or.inl rfl
      · exact Or.inr rfl
    · split
      · exact Or.inr rfl
      · exact Or.inl rfl

lemma fold_tuples_from (P : List SliceItem → Prop) :
    ∀ (sls : List (List SliceItem)) (st : GroupState),
      (∀ e ∈ st.banked, ∀ t ∈ e.2, P t) → (∀ t ∈ st.batch, P t) →
      (∀ t ∈ sls, P t) →
      (∀ e ∈ (sls.foldl groupStep st).banked, ∀ t ∈ e.2, P t)
      ∧ (∀ t ∈ (sls.foldl groupStep st).batch, P t) := by
  intro sls
  induction sls with
  | nil => intro st h1 h2 _; exact ⟨h1, h2⟩
  | cons sl rest ih =>
    intro st h1 h2 h3
    have hsl : P sl := h3 sl (List.mem_cons_self _ _)
    have hrest : ∀ t ∈ rest, P t := fun t ht => h3 t (List.mem_cons_of_mem _ ht)
    refine ih (groupStep st sl) ?_ ?_ hrest
    · intro e he t ht
      rcases groupStep_banked_sub st sl with hb | hb | ⟨s, hb⟩ <;> rw [hb] at he
      · exact h1 e he t ht
      · rcases List.mem_append.mp he with h4 | h4
        · exact h1 e h4 t ht
        · rw [List.mem_singleton.mp h4] at ht
          exact h2 t ht
      · rcases List.mem_append.mp he with h4 | h4
        · exact h1 e h4 t ht
        · rw [List.mem_singleton.mp h4] at ht
          exact h2 t ht
    · intro t ht
      rcases groupStep_batch_sub st sl with hb | hb <;> rw [hb] at ht
      · rw [List.mem_singleton.mp ht]
        exact hsl
      · rcases List.mem_append.mp ht with h4 | h4
        · exact h2 t h4
        · rw [List.mem_singleton.mp h4]
          exact hsl

lemma bankedAll_tuples (P : List SliceItem → Prop) (sls : List (List SliceItem))
    (h : ∀ t ∈ sls, P t) : ∀ e ∈ bankedAll sls, ∀ t ∈ e.2, P t := by
  have hh := fold_tuples_from P sls { banked := [], batch := [], stp := none }
    (fun e he => absurd he (List.not_mem_nil e))
    (fun t ht => absurd ht (List.not_mem_nil t)) h
  intro e he t ht
  rcases List.mem_append.mp he with h1 | h1
  · exact hh.1 e h1 t ht
  · rw [List.mem_singleton.mp h1] at ht
    exact hh.2 t ht

lemma optionMapM_mem (f : α → Option (List β)) :
    ∀ (l : List α) (ys : List (List β)) (t : β),
      optionMapM f l = some ys → t ∈ ys.flatten →
      ∃ e ∈ l, ∃ zs, f e = some zs ∧ t ∈ zs := by
  intro l
  induction l with
  | nil =>
    intro ys t h ht
    obtain rfl : ([] : List (List β)) = ys := Option.some.inj h
    cases ht
  | cons a l ih =>
    intro ys t h ht
    unfold optionMapM at h
    split at h
    · rename_i b bs hfa hrest
      obtain rfl : b :: bs = ys := Option.some.inj h
      rw [List.flatten_cons] at ht
      rcases List.mem_append.mp ht with h1 | h1
      · exact ⟨a, List.mem_cons_self _ _, b, hfa, h1⟩
      · obtain ⟨e, he, zs, hzs, htz⟩ := ih bs t hrest h1
        exact ⟨e, List.mem_cons_of_mem _ he, zs, hzs, htz⟩
    · cases h

lemma closeGroup_mem (mf : Nat) (e : Option (List Int) × List (List SliceItem))
    (l : List (List SliceItem)) (h : closeGroup mf e = some l)
    (t : List SliceItem) (ht : t ∈ l) :
    ∃ (s : List Int) (g0 : List SliceItem) (sd : Nat) (i : Int),
      e.2.head? = some g0
      ∧ t = g0.set sd (SliceItem.rng i (i + (mf : Int)) (s.getD sd 0)) := by
  obtain ⟨o, group⟩ := e
  cases o with
  | none => cases h
  | some s =>
    unfold closeGroup at h
    dsimp only at h
    cases hse : s.isEmpty with
    | true =>
      rw [hse] at h
      simp at h
    | false =>
      rw [hse] at h
      simp only [Bool.false_eq_true, if_false] at h
      cases hh : group.head? with
      | none =>
        rw [hh] at h
        cases hgl : group.getLast? with
        | none => rw [hgl] at h; cases h
        | some gl => rw [hgl] at h; cases h
      | some g0 =>
        rw [hh] at h
        cases hgl : group.getLast? with
        | none => rw [hgl] at h; cases h
        | some gl =>
          rw [hgl] at h
          dsimp only at h
          cases hg0 : g0.getD (s.indexOf (listMax s)) SliceItem.full with
          | idx start =>
            cases hglv : gl.getD (s.indexOf (listMax s)) SliceItem.full with
            | idx stop =>
              rw [hg0, hglv] at h
              obtain rfl := Option.some.inj h
              obtain ⟨i, hi, hteq⟩ := List.mem_map.mp ht
              exact ⟨s, g0, s.indexOf (listMax s), i, rfl, hteq.symm⟩
            | full => rw [hg0, hglv] at h; cases h
            | rng a0 b0 c0 => rw [hg0, hglv] at h; cases h
          | full =>
            rw [hg0] at h
            cases gl.getD (s.indexOf (listMax s)) SliceItem.full <;> cases h
          | rng a0 b0 c0 =>
            rw [hg0] at h
            cases gl.getD (s.indexOf (listMax s)) SliceItem.full <;> cases h

lemma ceil_div_le (m k : Nat) : (m + k - 1) / k ≤ m := by
  cases k with
  | zero => simp
  | succ k0 =>
    have h1 : m + (k0 + 1) - 1 = m + k0 := by omega
    rw [h1]
    have h2 : m + k0 ≤ k0 + m * (k0 + 1) := by
      have hmul : m ≤ m * (k0 + 1) := Nat.le_mul_of_pos_right m (by omega)
      omega
    calc (m + k0) / (k0 + 1) ≤ (k0 + m * (k0 + 1)) / (k0 + 1) :=
          Nat.div_le_div_right h2
      _ = k0 / (k0 + 1) + m := Nat.add_mul_div_right k0 m (Nat.succ_pos k0)
      _ = m := by rw [Nat.div_eq_of_lt (Nat.lt_succ_self k0), Nat.zero_add]

/-- Claim C5: over plain enumerator-shaped inputs, whenever group_slice_list
succeeds, every range slice occurring in an emitted work batch covers at
most max_frames frames along its stepping axis, whatever the established
step size. -/
theorem c5_batch_size_bound (sls : List (List SliceItem)) (mf : Nat)
    (grouped : List (List SliceItem))
    (hplain : ∀ t ∈ sls, PlainTup t)
    (hrun : group_slice_list sls mf = some grouped) :
    ∀ t ∈ grouped, ∀ a b s, SliceItem.rng a b s ∈ t →
      (sliceIndices a b s).length ≤ mf := by
  intro t ht a b s hrng
  unfold group_slice_list at hrun
  cases hm : optionMapM (closeGroup mf) (bankedAll sls) with
  | none =>
    rw [hm] at hrun
    cases hrun
  | some ys =>
    rw [hm] at hrun
    have hys : ys.flatten = grouped := by
      simpa using hrun
    obtain ⟨e, he, zs, hzs, htz⟩ :=
      optionMapM_mem (closeGroup mf) (bankedAll sls) ys t hm (by rw [hys]; exact ht)
    obtain ⟨s', g0, sd, i, hhead, hteq⟩ := closeGroup_mem mf e zs hzs t htz
    have hg0mem : g0 ∈ e.2 := List.mem_of_mem_head? hhead
    have hplain0 : PlainTup g0 := bankedAll_tuples PlainTup sls hplain e he g0 hg0mem
    rw [hteq] at hrng
    rcases List.mem_or_eq_of_mem_set hrng with hin | heqit
    · have := hplain0 _ hin
      simp [isPlainItem] at this
    · injection heqit with ha hb hs
      rw [ha, hb, hs]
      have hmf : i + (mf : Int) - i = (mf : Int) := by ring
      simp only [sliceIndices, List.length_map, List.length_range, hmf,
        Int.toNat_ofNat]
      exact ceil_div_le mf ((s'.getD sd 0).toNat)

/-- Witness for c5_batch_size_bound on a step-2 slice list: the emitted
batch slice (0, 4, 2) covers 2 frames, within max_frames = 4. -/
theorem c5_witness : (sliceIndices 0 4 2).length ≤ 4 :=
  c5_batch_size_bound
    [[SliceItem.idx 0, SliceItem.full], [SliceItem.idx 2, SliceItem.full],
     [SliceItem.idx 4, SliceItem.full], [SliceItem.idx 6, SliceItem.full],
     [SliceItem.idx 8, SliceItem.full]] 4
    [[SliceItem.rng 0 4 2, SliceItem.full], [SliceItem.rng 4 8 2, SliceItem.full]]
    (by decide) (by decide)
    [SliceItem.rng 0 4 2, SliceItem.full] (by decide) 0 4 2 (by decide)

lemma range_mul_flatMap (b : Nat) : ∀ a : Nat,
    List.range (a * b)
      = (List.range a).flatMap (fun i => (List.range b).map (fun j => i * b + j)) := by
  intro a
  induction a with
  | zero => simp
  | succ a ih =>
    rw [Nat.succ_mul, List.range_add, ih, List.range_succ, List.flatMap_append]
    congr 1
    simp

lemma cartProd_rmRank : ∀ es : List Nat,
    (cartProd es).map (rmRank es) = List.range es.prod := by
  intro es
  induction es with
  | nil => decide
  | cons e es ih =>
    show ((List.range e).flatMap
        (fun i => (cartProd es).map (fun mi => i :: mi))).map (rmRank (e :: es)) = _
    rw [List.map_flatMap]
    have hinner : ∀ i : Nat,
        ((cartProd es).map (fun mi => i :: mi)).map (rmRank (e :: es))
          = (List.range es.prod).map (fun j => i * es.prod + j) := by
      intro i
      rw [List.map_map]
      have h1 : (rmRank (e :: es)) ∘ (fun mi => i :: mi)
          = (fun j => i * es.prod + j) ∘ rmRank es := rfl
      rw [h1, ← List.map_map, ih]
    simp only [hinner]
    rw [List.prod_cons]
    exact (range_mul_flatMap es.prod e).symm

lemma mem_cartProd_length : ∀ (es : List Nat) (mi : List Nat),
    mi ∈ cartProd es → mi.length = es.length := by
  intro es
  induction es with
  | nil =>
    intro mi h
    have hmi : mi = [] := List.mem_singleton.mp h
    rw [hmi]
  | cons e es ih =>
    intro mi h
    rcases List.mem_flatMap.mp h with ⟨i, hi, hmem⟩
    rcases List.mem_map.mp hmem with ⟨mi', hmi', rfl⟩
    simp [ih mi' hmi']

lemma map_getD_indexOf : ∀ (l : List Nat) (mi : List Nat), l.Nodup →
    mi.length = l.length →
    l.map (fun d => mi.getD (l.indexOf d) 0) = mi := by
  intro l
  induction l with
  | nil =>
    intro mi _ hlen
    have hmi : mi = [] := List.length_eq_zero.mp hlen
    rw [hmi]
    rfl
  | cons a as ih =>
    intro mi hnd hlen
    cases mi with
    | nil => exact absurd hlen (by simp)
    | cons m ms =>
      have hnd' : as.Nodup := (List.nodup_cons.mp hnd).2
      have hnotin : a ∉ as := (List.nodup_cons.mp hnd).1
      have hlen' : ms.length = as.length := by simpa using hlen
      rw [List.map_cons]
      congr 1
      · rw [List.indexOf_cons_self]
        rfl
      · have hmap : as.map (fun d => (m :: ms).getD ((a :: as).indexOf d) 0)
            = as.map (fun d => ms.getD (as.indexOf d) 0) := by
          apply List.map_congr_left
          intro d hd
          have hda : d ≠ a := fun hda => hnotin (hda ▸ hd)
          rw [List.indexOf_cons_ne _ (Ne.symm hda)]
          rfl
        rw [hmap]
        exact ih ms hnd' hlen'

lemma sliceDirs_nodup (shape core : List Nat) : (sliceDirs shape core).Nodup :=
  List.Nodup.filter _ (List.nodup_range _)

lemma mem_sliceDirs {shape core : List Nat} {d : Nat}
    (h : d ∈ sliceDirs shape core) :
    d < shape.length ∧ core.contains d = false := by
  have h1 := List.mem_filter.mp h
  refine ⟨List.mem_range.mp h1.1, ?_⟩
  simpa using h1.2

lemma sliceTupleOf_getD (shape core : List Nat) (mi : List Nat) (d : Nat)
    (hd : d < shape.length) :
    (sliceTupleOf shape core mi).getD d SliceItem.full
      = if core.contains d then SliceItem.full
        else SliceItem.idx (Int.ofNat (mi.getD ((sliceDirs shape core).indexOf d) 0)) := by
  unfold sliceTupleOf
  rw [List.getD_eq_getElem?_getD, List.getElem?_map, List.getElem?_range hd]
  rfl

lemma extract_sliceTupleOf (shape core : List Nat) (mi : List Nat)
    (hlen : mi.length = (sliceDirs shape core).length) :
    (sliceDirs shape core).map
        (fun d => itemIdx ((sliceTupleOf shape core mi).getD d SliceItem.full))
      = mi := by
  have hpt : ∀ d ∈ sliceDirs shape core,
      itemIdx ((sliceTupleOf shape core mi).getD d SliceItem.full)
        = mi.getD ((sliceDirs shape core).indexOf d) 0 := by
    intro d hd
    obtain ⟨hlt, hnc⟩ := mem_sliceDirs hd
    rw [sliceTupleOf_getD shape core mi d hlt, hnc]
    simp [itemIdx]
  rw [List.map_congr_left hpt]
  exact map_getD_indexOf (sliceDirs shape core) mi (sliceDirs_nodup shape core) hlen

/-- Claim C2: for every shape and pattern, get_slice_list yields exactly the
product of the slice-dimension extents many tuples, all distinct, each with
one entry per dimension of the shape, with every (in-range) core dimension
set to the full-range marker; and reading off the slice-dimension indices
and ranking them in row-major (last axis fastest) mixed radix gives
exactly 0, 1, 2, ... in order, i.e. the enumeration is complete, duplicate
free, and in row-major order. -/
theorem c2_enumeration (shape core : List Nat) :
    (get_slice_list shape core).length
      = ((sliceDirs shape core).map (fun d => shape.getD d 0)).prod
  ∧ (get_slice_list shape core).Nodup
  ∧ (∀ t ∈ get_slice_list shape core, t.length = shape.length)
  ∧ (∀ t ∈ get_slice_list shape core, ∀ d ∈ core, d < shape.length →
        t.getD d SliceItem.full = SliceItem.full)
  ∧ (get_slice_list shape core).map
        (fun t => rmRank ((sliceDirs shape core).map (fun d => shape.getD d 0))
          ((sliceDirs shape core).map (fun d => itemIdx (t.getD d SliceItem.full))))
      = List.range ((sliceDirs shape core).map (fun d => shape.getD d 0)).prod := by
  have hkey : (get_slice_list shape core).map
      (fun t => (sliceDirs shape core).map (fun d => itemIdx (t.getD d SliceItem.full)))
        = cartProd ((sliceDirs shape core).map (fun d => shape.getD d 0)) := by
    unfold get_slice_list
    rw [List.map_map]
    have hpt : ∀ mi ∈ cartProd ((sliceDirs shape core).map (fun d => shape.getD d 0)),
        ((fun t => (sliceDirs shape core).map
            (fun d => itemIdx (t.getD d SliceItem.full))) ∘ sliceTupleOf shape core) mi
          = mi := by
      intro mi hmi
      exact extract_sliceTupleOf shape core mi
        (by rw [mem_cartProd_length _ mi hmi, List.length_map])
    rw [List.map_congr_left hpt]
    simp
  have hlast : (get_slice_list shape core).map
        (fun t => rmRank ((sliceDirs shape core).map (fun d => shape.getD d 0))
          ((sliceDirs shape core).map (fun d => itemIdx (t.getD d SliceItem.full))))
      = List.range ((sliceDirs shape core).map (fun d => shape.getD d 0)).prod := by
    have hcomp : (fun t : List SliceItem =>
          rmRank ((sliceDirs shape core).map (fun d => shape.getD d 0))
          ((sliceDirs shape core).map (fun d => itemIdx (t.getD d SliceItem.full))))
        = (rmRank ((sliceDirs shape core).map (fun d => shape.getD d 0)))
          ∘ (fun t : List SliceItem => (sliceDirs shape core).map
              (fun d => itemIdx (t.getD d SliceItem.full))) := rfl
    rw [hcomp, ← List.map_map, hkey, cartProd_rmRank]
  refine ⟨?_, ?_, ?_, ?_, hlast⟩
  · have hlen := congrArg List.length hlast
    rw [List.length_map, List.length_range] at hlen
    exact hlen
  · apply List.Nodup.of_map _ (hlast ▸ List.nodup_range _)
  · intro t ht
    obtain ⟨mi, hmi, rfl⟩ := List.mem_map.mp ht
    simp [sliceTupleOf]
  · intro t ht d hd hdlt
    obtain ⟨mi, hmi, rfl⟩ := List.mem_map.mp ht
    rw [sliceTupleOf_getD shape core mi d hdlt]
    have hcd : core.contains d = true := by
      simpa using hd
    rw [hcd]
    rfl

/-- Witness for c2_enumeration at shape (2, 3) with core dimension 1: the
tuple (0, full) has one entry per dimension. -/
theorem c2_witness :
    ([SliceItem.idx 0, SliceItem.full] : List SliceItem).length
      = ([2, 3] : List Nat).length :=
  (c2_enumeration [2, 3] [1]).2.2.1 [SliceItem.idx 0, SliceItem.full] (by decide)

lemma sum_replicate_nat (k x : Nat) : (List.replicate k x).sum = k * x := by
  induction k with
  | zero => simp
  | succ k ih =>
    rw [List.replicate_succ, List.sum_cons, ih]
    ring

lemma range'_take : ∀ (n m s : Nat), n ≤ m →
    (List.range' s m).take n = List.range' s n := by
  intro n
  induction n with
  | zero =>
    intro m s _
    simp
  | succ n ih =>
    intro m s h
    cases m with
    | zero => exact absurd h (by omega)
    | succ m0 =>
      rw [List.range'_succ, List.take_succ_cons, List.range'_succ]
      congr 1
      exact ih m0 (s + 1) (by omega)

lemma range'_drop : ∀ (n m s : Nat),
    (List.range' s m).drop n = List.range' (s + n) (m - n) := by
  intro n
  induction n with
  | zero =>
    intro m s
    simp
  | succ n ih =>
    intro m s
    cases m with
    | zero => simp
    | succ m0 =>
      rw [List.range'_succ, List.drop_succ_cons, ih m0 (s + 1)]
      have h1 : s + 1 + n = s + (n + 1) := by omega
      have h2 : m0 - n = m0 + 1 - (n + 1) := by omega
      rw [h1, h2]

lemma splitBySizes_range' : ∀ (ns : List Nat) (s m : Nat), ns.sum ≤ m →
    splitBySizes (List.range' s m) ns = rangeSegs s ns := by
  intro ns
  induction ns with
  | nil => intro s m _; rfl
  | cons n ns ih =>
    intro s m h
    rw [List.sum_cons] at h
    show (List.range' s m).take n :: splitBySizes ((List.range' s m).drop n) ns
        = List.range' s n :: rangeSegs (s + n) ns
    rw [range'_take n m s (by omega), range'_drop n m s]
    congr 1
    exact ih (s + n) (m - n) (by omega)

lemma sum_sectionSizes (L R : Nat) (hR : 1 ≤ R) : (sectionSizes L R).sum = L := by
  unfold sectionSizes
  rw [List.sum_append, sum_replicate_nat, sum_replicate_nat]
  have hmod : L % R < R := Nat.mod_lt _ (by omega)
  have hdm := Nat.div_add_mod L R
  calc L % R * (L / R + 1) + (R - L % R) * (L / R)
      = (L % R + (R - L % R)) * (L / R) + L % R := by ring
    _ = R * (L / R) + L % R := by rw [show L % R + (R - L % R) = R from by omega]
    _ = L := hdm

lemma length_sectionSizes (L R : Nat) (hR : 1 ≤ R) :
    (sectionSizes L R).length = R := by
  unfold sectionSizes
  rw [List.length_append, List.length_replicate, List.length_replicate]
  have : L % R < R := Nat.mod_lt _ (by omega)
  omega

lemma arraySplit_eq (L R : Nat) (hR : 1 ≤ R) :
    arraySplit L R = rangeSegs 0 (sectionSizes L R) := by
  unfold arraySplit
  rw [List.range_eq_range']
  exact splitBySizes_range' (sectionSizes L R) 0 L
    (by rw [sum_sectionSizes L R hR])

lemma rangeSegs_getD : ∀ (ns : List Nat) (s p : Nat), p < ns.length →
    (rangeSegs s ns).getD p []
      = List.range' (s + (ns.take p).sum) (ns.getD p 0) := by
  intro ns
  induction ns with
  | nil => intro s p h; exact absurd h (by simp)
  | cons n ns ih =>
    intro s p hp
    cases p with
    | zero => simp [rangeSegs]
    | succ p =>
      show (rangeSegs (s + n) ns).getD p [] = _
      rw [ih (s + n) p (by simpa using hp)]
      have h1 : s + n + (ns.take p).sum = s + ((n :: ns).take (p + 1)).sum := by
        rw [List.take_succ_cons, List.sum_cons]
        omega
      rw [h1]
      rfl

lemma getD_replicate_lt (x : Nat) : ∀ (k p : Nat), p < k →
    (List.replicate k x).getD p 0 = x := by
  intro k
  induction k with
  | zero => intro p h; exact absurd h (by omega)
  | succ k ih =>
    intro p h
    cases p with
    | zero => rfl
    | succ p => exact ih p (by omega)

lemma sectionSizes_getD (L R p : Nat) (hR : 1 ≤ R) (hp : p < R) :
    (sectionSizes L R).getD p 0
      = if p < L % R then L / R + 1 else L / R := by
  have hmod : L % R < R := Nat.mod_lt _ (by omega)
  unfold sectionSizes
  by_cases hplt : p < L % R
  · rw [if_pos hplt, List.getD_eq_getElem?_getD,
      List.getElem?_append_left (by rw [List.length_replicate]; exact hplt)]
    rw [← List.getD_eq_getElem?_getD]
    exact getD_replicate_lt _ _ _ hplt
  · rw [if_neg hplt, List.getD_eq_getElem?_getD,
      List.getElem?_append_right (by rw [List.length_replicate]; omega)]
    rw [← List.getD_eq_getElem?_getD, List.length_replicate]
    exact getD_replicate_lt _ _ _ (by omega)

lemma flatten_splitBySizes : ∀ (ns : List Nat) (l : List α),
    (splitBySizes l ns).flatten = l.take ns.sum := by
  intro ns
  induction ns with
  | nil => intro l; rfl
  | cons n ns ih =>
    intro l
    show (l.take n :: splitBySizes (l.drop n) ns).flatten = l.take ((n :: ns).sum)
    rw [List.flatten_cons, ih (l.drop n), List.sum_cons, List.take_add]

lemma take_sum_getD_le : ∀ (ns : List Nat) (p : Nat), p < ns.length →
    (ns.take p).sum + ns.getD p 0 ≤ ns.sum := by
  intro ns
  induction ns with
  | nil => intro p h; exact absurd h (by simp)
  | cons n ns ih =>
    intro p hp
    cases p with
    | zero =>
      simp
    | succ p =>
      have h1 := ih p (by simpa using hp)
      have h2 : (n :: ns).getD (p + 1) 0 = ns.getD p 0 := rfl
      rw [h2, List.take_succ_cons, List.sum_cons, List.sum_cons]
      omega

lemma getLast?_range'_1 (n s : Nat) :
    (List.range' s (n + 1)).getLast? = some (s + n) := by
  rw [List.range'_1_concat, List.getLast?_concat]

lemma arraySplit_getD (L R p : Nat) (hR : 1 ≤ R) (hp : p < R) :
    (arraySplit L R).getD p []
      = List.range' (((sectionSizes L R).take p).sum)
          ((sectionSizes L R).getD p 0) := by
  rw [arraySplit_eq L R hR,
    rangeSegs_getD (sectionSizes L R) 0 p
      (by rw [length_sectionSizes L R hR]; exact hp)]
  rw [Nat.zero_add]

lemma per_process_eq (sl : List α) (p R : Nat) (hR : 1 ≤ R) (hp : p < R) :
    get_slice_list_per_process sl p R
      = if (sectionSizes sl.length R).getD p 0 = 0 then none
        else some ((sl.drop (((sectionSizes sl.length R).take p).sum)).take
            ((sectionSizes sl.length R).getD p 0)) := by
  unfold get_slice_list_per_process
  rw [if_neg (by omega : ¬ R = 0), if_pos hp]
  rw [arraySplit_getD sl.length R p hR hp]
  cases hnp : (sectionSizes sl.length R).getD p 0 with
  | zero =>
    simp
  | succ k =>
    have hh : (List.range' (((sectionSizes sl.length R).take p).sum) (k + 1)).head?
        = some (((sectionSizes sl.length R).take p).sum) := by
      rw [List.head?_range']
      simp
    have hl := getLast?_range'_1 k (((sectionSizes sl.length R).take p).sum)
    rw [hh, hl]
    have harith : ((sectionSizes sl.length R).take p).sum + k + 1
        - ((sectionSizes sl.length R).take p).sum = k + 1 := by omega
    dsimp only
    rw [harith]
    simp

/-- Claim C4: np.array_split-based distribution cuts the batch index range
[0, L) into R contiguous shares that concatenate back to [0, L) exactly (no
gap, no overlap), with sizes differing by at most one and the larger shares
at the lower ranks; get_slice_list_per_process returns exactly its rank's
contiguous share; and 3 batches over 2 ranks give rank 0 the first two and
rank 1 the last one. -/
theorem c4_distribution_partition (L R : Nat) (hR : 1 ≤ R) :
    (arraySplit L R).flatten = List.range L
  ∧ (arraySplit L R).length = R
  ∧ (∀ r1 r2, r1 ≤ r2 → r2 < R →
      ((arraySplit L R).getD r2 []).length ≤ ((arraySplit L R).getD r1 []).length
    ∧ ((arraySplit L R).getD r1 []).length
        ≤ ((arraySplit L R).getD r2 []).length + 1)
  ∧ (∀ p, p < R → (arraySplit L R).getD p [] ≠ [] →
      get_slice_list_per_process (List.range L) p R
        = some ((arraySplit L R).getD p []))
  ∧ arraySplit 3 2 = [[0, 1], [2]] := by
  have hlen : ∀ r, r < R →
      ((arraySplit L R).getD r []).length = (sectionSizes L R).getD r 0 := by
    intro r hr
    rw [arraySplit_getD L R r hR hr, List.length_range']
  refine ⟨?_, ?_, ?_, ?_, by decide⟩
  · unfold arraySplit
    rw [flatten_splitBySizes, sum_sectionSizes L R hR]
    have htl := List.take_length (List.range L)
    rw [List.length_range] at htl
    exact htl
  · rw [arraySplit_eq L R hR]
    have hrs : ∀ (ns : List Nat) (s : Nat), (rangeSegs s ns).length = ns.length := by
      intro ns
      induction ns with
      | nil => intro s; rfl
      | cons n ns ih => intro s; simp [rangeSegs, ih]
    rw [hrs, length_sectionSizes L R hR]
  · intro r1 r2 h12 h2R
    rw [hlen r1 (by omega), hlen r2 h2R,
      sectionSizes_getD L R r1 hR (by omega), sectionSizes_getD L R r2 hR h2R]
    constructor <;> (split_ifs <;> omega)
  · intro p hp hne
    rw [per_process_eq (List.range L) p R hR hp]
    rw [List.length_range]
    have hnp : (sectionSizes L R).getD p 0 ≠ 0 := by
      intro h0
      apply hne
      rw [arraySplit_getD L R p hR hp, h0]
      simp
    rw [if_neg hnp]
    congr 1
    rw [arraySplit_getD L R p hR hp]
    have hle := take_sum_getD_le (sectionSizes L R) p
      (by rw [length_sectionSizes L R hR]; exact hp)
    rw [sum_sectionSizes L R hR] at hle
    rw [List.range_eq_range',
      range'_drop ((sectionSizes L R).take p).sum L 0,
      range'_take ((sectionSizes L R).getD p 0)
        (L - ((sectionSizes L R).take p).sum)
        (0 + ((sectionSizes L R).take p).sum) (by omega),
      Nat.zero_add]

/-- Witness for c4_distribution_partition: with 3 batches over 2 ranks,
rank 1 is handed exactly its frames share, the final batch. -/
theorem c4_witness :
    get_slice_list_per_process (List.range 3) 1 2
      = some ((arraySplit 3 2).getD 1 []) :=
  (c4_distribution_partition 3 2 (by decide)).2.2.2.1 1 (by decide) (by decide)

/-- Claim C8 (amended): distribution raises (an IndexError or ValueError,
not a dedicated InvalidRankError, which does not exist in the code)
whenever the rank is at least the number of ranks or the number of ranks is
zero; and an in-range rank also fails exactly when its share is empty,
which happens when there are fewer batches than ranks and the rank is at
least the batch count; it succeeds in every other case. -/
theorem c8_failure_characterisation {α : Type} (sl : List α) (p R : Nat) :
    (get_slice_list_per_process sl p R).isSome = true
      ↔ (p < R ∧ (sl.length < R → p < sl.length)) := by
  by_cases hR : R = 0
  · subst hR
    unfold get_slice_list_per_process
    simp
  · have hR1 : 1 ≤ R := by omega
    by_cases hp : p < R
    · rw [per_process_eq sl p R hR1 hp]
      by_cases hnp : (sectionSizes sl.length R).getD p 0 = 0
      · rw [if_pos hnp]
        simp only [Option.isSome_none, Bool.false_eq_true, false_iff]
        rw [sectionSizes_getD sl.length R p hR1 hp] at hnp
        rintro ⟨_, himp⟩
        by_cases hLR : sl.length < R
        · have hmod : sl.length % R = sl.length := Nat.mod_eq_of_lt hLR
          have hdiv : sl.length / R = 0 := Nat.div_eq_of_lt hLR
          rw [hmod, hdiv] at hnp
          have hpL := himp hLR
          rw [if_pos hpL] at hnp
          omega
        · have hdiv : 1 ≤ sl.length / R :=
            (Nat.one_le_div_iff (by omega)).mpr (by omega)
          split_ifs at hnp <;> omega
      · rw [if_neg hnp]
        simp only [Option.isSome_some, true_iff]
        refine ⟨hp, fun hLR => ?_⟩
        rw [sectionSizes_getD sl.length R p hR1 hp] at hnp
        have hmod : sl.length % R = sl.length := Nat.mod_eq_of_lt hLR
        have hdiv : sl.length / R = 0 := Nat.div_eq_of_lt hLR
        rw [hmod, hdiv] at hnp
        by_contra hpL
        split_ifs at hnp <;> omega
    · unfold get_slice_list_per_process
      rw [if_neg hR, if_neg hp]
      simp only [Option.isSome_none, Bool.false_eq_true, false_iff]
      rintro ⟨hpR, _⟩
      exact hp hpR
